import Mathlib

/-!
Verification of the `rust-quantile` crate (biased quantiles over data
streams, Cormode-Korn-Muthukrishnan-Srivastava) against its specification.

The Rust source (`src/lib.rs`) is shallowly embedded below.  `f64` values
are modelled as rationals (`ℚ`): all arithmetic performed by the crate on
observed values and ranks is exact field arithmetic, additions of small
integers and divisions, so `ℚ` is a faithful model away from NaN and
overflow.  The NaN-dependent behaviour of the sorting comparator used by
`flush_and_compress` is modelled separately (see `FP` near the end), since
it is the one place where a NaN changes control flow (a panic).
-/

attribute [local semireducible] Rat.mul Rat.inv Rat.add Rat.sub Rat.ofScientific

namespace RustQuantile

/-- Largest finite `f64`, the initial accumulator of `Stream::invariant`
(`std::f64::MAX` in the source).  The literal is the exact value of
`2 ^ 1024 - 2 ^ 971`, written out so that it evaluates by `decide`. -/
def F64_MAX : ℚ := 179769313486231570814527423731704356798070567525844996598917476803157260780028538760589558632766878171540458953514382464234321326889464182768467546703537516986049910576551282076245490090389328944075868508455133942304583236903222948165808559332123348274797826204144723168738177180919299881250404026184124858368

/-- Rust struct `Quantile { value, error, u, v }` from `src/lib.rs`. -/
structure Quantile where
  value : ℚ
  error : ℚ
  u : ℚ
  v : ℚ
deriving DecidableEq

/-- The unchecked body of `Quantile::new`: stores the rank and error and
precomputes `u = 2*error/value` and `v = 2*error/(1-value)`. -/
def Quantile.mk' (value error : ℚ) : Quantile :=
  { value := value, error := error, u := 2 * error / value, v := 2 * error / (1 - value) }

/-- `Quantile::new(value, error)`, with the four `assert!`s modelled as an
`Option` (`none` is the panic). -/
def Quantile.new (value error : ℚ) : Option Quantile :=
  if 0 ≤ value ∧ value ≤ 1 ∧ 0 ≤ error ∧ error ≤ 1 then some (Quantile.mk' value error)
  else none

/-- Rust struct `Sample { v, g, d }` from `src/lib.rs`. -/
structure Sample where
  v : ℚ
  g : ℚ
  d : ℤ
deriving DecidableEq

instance : Inhabited Sample := ⟨⟨0, 0, 0⟩⟩

/-- Rust struct `Stream`.  The `RefCell` around `new_samples` is interior
mutability only; here it is a plain field (always `[]` outside a flush). -/
structure Stream where
  targets : List Quantile
  samples : List Sample
  new_samples : List Sample
  number_items : ℕ
  buffer : List ℚ
deriving DecidableEq

/-- `BUFFER_SIZE` from `src/lib.rs`. -/
def BUFFER_SIZE : ℕ := 500

/-- `Stream::new`. -/
def Stream.new (quantiles : List Quantile) : Stream :=
  { targets := quantiles, samples := [], new_samples := [], number_items := 0, buffer := [] }

/-- `Stream::invariant`, with the target list and item count passed
explicitly (they are read from `self` in the source; during a flush
`number_items` changes between calls, so it is threaded here). -/
def invariantF (targets : List Quantile) (number_items : ℕ) (r : ℚ) : ℚ :=
  targets.foldl
    (fun mn target =>
      min mn
        (if r < target.error * (number_items : ℚ) then target.v * ((number_items : ℚ) - r)
         else target.u * r))
    F64_MAX

/-- `Stream::invariant` reading its parameters from the stream. -/
def Stream.invariant (s : Stream) (r : ℚ) : ℚ :=
  invariantF s.targets s.number_items r

/-- `Stream::merge_and_insert`: commit `current` into the accumulating
`new_samples` list, merging it into the last committed sample when the
invariant permits, otherwise appending it and advancing `prev_r`. -/
def mergeAndInsert (targets : List Quantile) (number_items : ℕ)
    (current : Sample) (new_samples : List Sample) (prev_r : ℚ) :
    List Sample × ℚ :=
  match new_samples.getLast? with
  | none => ([current], prev_r)
  | some prev =>
      if prev.g + current.g + (current.d : ℚ) ≤ invariantF targets number_items prev_r then
        (new_samples.dropLast ++ [{ v := current.v, g := prev.g + current.g, d := current.d }],
         prev_r)
      else
        (new_samples ++ [current], prev_r + prev.g)

/-- The inner `while idx < self.samples.len() && self.samples[idx].v <= value`
loop of `flush_and_compress`: commit the leading old samples whose value is
`≤ value`, returning the remaining old samples and the updated accumulator
and `prev_r`. -/
def commitLE (targets : List Quantile) (number_items : ℕ) (value : ℚ) :
    List Sample → List Sample → ℚ → List Sample × List Sample × ℚ
  | [], ns, pr => ([], ns, pr)
  | s :: rest, ns, pr =>
      if s.v ≤ value then
        let p := mergeAndInsert targets number_items s ns pr
        commitLE targets number_items value rest p.1 p.2
      else (s :: rest, ns, pr)

/-- The trailing `while idx < self.samples.len()` loop of
`flush_and_compress`: commit all remaining old samples. -/
def commitAll (targets : List Quantile) (number_items : ℕ) :
    List Sample → List Sample → ℚ → List Sample × ℚ
  | [], ns, pr => (ns, pr)
  | s :: rest, ns, pr =>
      let p := mergeAndInsert targets number_items s ns pr
      commitAll targets number_items rest p.1 p.2

/-- The main `for value in self.buffer.iter()` loop of
`flush_and_compress`, followed by the trailing loop.  `fullLen` is the
length of the pre-flush sample list, so the Rust cursor `idx` equals
`fullLen - old.length`; `idx == 0` is `old.length = fullLen` and
`idx == self.samples.len()` is `old.length = 0`.  Returns the built
sample list, the final `prev_r` and the final `number_items`. -/
def flushLoop (targets : List Quantile) (fullLen : ℕ) :
    List ℚ → List Sample → List Sample → ℚ → ℕ → List Sample × ℚ × ℕ
  | [], old, ns, pr, n =>
      let p := commitAll targets n old ns pr
      (p.1, p.2, n)
  | value :: rest, old, ns, pr, n =>
      let q := commitLE targets n value old ns pr
      let c : Sample :=
        if q.1.length = fullLen ∨ q.1.length = 0 then
          { v := value, g := 1, d := 0 }
        else
          { v := value, g := 1,
            d := ⌊invariantF targets n (q.2.2 + (q.1.headD default).g)⌋ - 1 }
      let p := mergeAndInsert targets n c q.2.1 q.2.2
      flushLoop targets fullLen rest q.1 p.1 p.2 (n + 1)

/-- `Stream::flush_and_compress`.  A no-op on an empty buffer; otherwise
sorts the buffer ascending, runs the merge pass, swaps the built list into
`samples` and clears the scratch list and the buffer. -/
def Stream.flush_and_compress (s : Stream) : Stream :=
  if s.buffer = [] then s
  else
    let sorted := s.buffer.insertionSort (· ≤ ·)
    let p := flushLoop s.targets s.samples.length sorted s.samples s.new_samples 0 s.number_items
    { s with samples := p.1, new_samples := [], number_items := p.2.2, buffer := [] }

/-- `Stream::observe`: push onto the buffer, flushing when the buffer
reaches `BUFFER_SIZE`. -/
def Stream.observe (s : Stream) (value : ℚ) : Stream :=
  let s1 : Stream := { s with buffer := s.buffer ++ [value] }
  if s1.buffer.length = BUFFER_SIZE then s1.flush_and_compress else s1

/-- The `for i in 1..self.samples.len() - 1` scan of `Stream::query`:
accumulate `r` by the previous sample's `g`, return the previous sample's
value on the first sample with `r + g + d > t`, else the last value. -/
def queryScan (t : ℚ) : ℚ → List Sample → ℚ
  | _, [] => 0
  | _, [a] => a.v
  | _, [_, b] => b.v
  | r, a :: b :: c :: rest =>
      if t < r + a.g + b.g + (b.d : ℚ) then a.v
      else queryScan t (r + a.g) (b :: c :: rest)

/-- The target cumulative rank computed by `query`:
`t = quantile * number_items + invariant(quantile * number_items) / 2`. -/
def queryT (s : Stream) (quantile : ℚ) : ℚ :=
  quantile * (s.number_items : ℚ)
    + invariantF s.targets s.number_items (quantile * (s.number_items : ℚ)) / 2

/-- `Stream::query` in a release build (the `debug_assert!` compiles to
nothing): flush, return `0.0` on an empty summary, else scan for the
target cumulative rank `t`.  Returns the updated stream and the value. -/
def Stream.query (s : Stream) (quantile : ℚ) : Stream × ℚ :=
  let s1 := s.flush_and_compress
  (s1, if s1.samples = [] then 0 else queryScan (queryT s1 quantile) 0 s1.samples)

/-- `Stream::query` in a debug build: the `debug_assert!` that exactly one
configured target has the queried rank is live; `none` is the panic. -/
def Stream.queryDebug (s : Stream) (quantile : ℚ) : Option (Stream × ℚ) :=
  if s.targets.countP (fun t => decide (t.value = quantile)) = 1 then some (s.query quantile)
  else none

/-- Total `g` mass of a sample list (spec: the number of observations the
summary represents). -/
def sumG (l : List Sample) : ℚ := (l.map Sample.g).sum

/-- The sample list is non-decreasing in `value` (spec invariant on the
Summary Store). -/
def SortedV (l : List Sample) : Prop := l.Pairwise (fun a b => a.v ≤ b.v)

/-- Every sample value in `l` is at most `q`. -/
def bndV (l : List Sample) (q : ℚ) : Prop := ∀ x ∈ l, x.v ≤ q

/-- Cumulative `g` of the first `i` samples (spec: the accumulator `r` of
the query scan just before examining sample `i`). -/
def gsum (l : List Sample) (i : ℕ) : ℚ := ((l.take i).map Sample.g).sum

/-- The stopping condition of the query scan at index `i`, following the
spec's words: `r + sample.g + sample.delta > t` with `r` the accumulated
`g` of the samples before `i`. -/
def qCond (l : List Sample) (t : ℚ) (i : ℕ) : Prop :=
  t < gsum l i + (l.getD i default).g + ((l.getD i default).d : ℚ)

/-! NaN-aware model of the sort step of `flush_and_compress`.  An `f64` is
either a NaN or an ordinary (here rational) value; `f64::partial_cmp`
returns `None` as soon as either operand is a NaN, and the comparator
`|x, y| x.partial_cmp(y).unwrap()` then panics.  The panic is modelled as
`Except.error ()`. -/

/-- An `f64` observation: a NaN or an ordinary value. -/
inductive FP where
  | nan : FP
  | val : ℚ → FP
deriving DecidableEq

/-- `f64::partial_cmp`: `none` when either operand is NaN. -/
def cmpF : FP → FP → Option Ordering
  | FP.val x, FP.val y =>
      some (if x < y then Ordering.lt else if x = y then Ordering.eq else Ordering.gt)
  | _, _ => none

/-- One insertion step of a comparison sort whose comparator unwraps
`cmpF`; `Except.error ()` is the `unwrap` panic on a `None` comparison. -/
def insertByUnwrap (x : FP) : List FP → Except Unit (List FP)
  | [] => Except.ok [x]
  | y :: ys =>
      match cmpF x y with
      | none => Except.error ()
      | some Ordering.lt => Except.ok (x :: y :: ys)
      | some _ => (insertByUnwrap x ys).map (fun r => y :: r)

/-- `buffer.sort_by(|x, y| x.partial_cmp(y).unwrap())`: a comparison sort
that panics the first time the comparator sees a NaN. -/
def sortByUnwrap : List FP → Except Unit (List FP)
  | [] => Except.ok []
  | x :: xs => (sortByUnwrap xs).bind (insertByUnwrap x)

/-- The observation buffer of a `Stream` over genuine `f64` values. -/
structure StreamF where
  buffer : List FP
deriving DecidableEq

/-- A fresh stream's buffer (for the NaN model). -/
def StreamF.newF : StreamF := ⟨[]⟩

/-- `Stream::observe` restricted to its buffering effect. -/
def StreamF.observe (s : StreamF) (value : FP) : StreamF :=
  ⟨s.buffer ++ [value]⟩

/-- The part of `Stream::flush_and_compress` up to and including the
`sort_by`: return early on an empty buffer, else sort with the unwrapping
comparator.  Everything after the sort is unreachable when the sort
panics. -/
def StreamF.flushSort (s : StreamF) : Except Unit (List FP) :=
  if s.buffer = [] then Except.ok [] else sortByUnwrap s.buffer

/-! Helper lemmas. -/

/-- A flush leaves the observation buffer empty. -/
theorem Stream.flush_buffer_nil (s : Stream) : s.flush_and_compress.buffer = [] := by
  unfold Stream.flush_and_compress
  split
  · assumption
  · rfl

/-- Flushing is the identity on a stream whose buffer is empty. -/
theorem flush_of_buffer_nil (s : Stream) (h : s.buffer = []) : s.flush_and_compress = s := by
  unfold Stream.flush_and_compress
  rw [if_pos h]

/-! Claim theorems. -/

/-- C10: observing a NaN together with at least one other value in the
same buffer makes the flush panic: the sort comparator of
`flush_and_compress` unwraps a `None` partial comparison.  Concretely,
observing `1.0` then NaN and flushing hits the panic. -/
theorem observe_nan_flush_panics :
    ((StreamF.newF.observe (FP.val 1)).observe FP.nan).flushSort = Except.error () := by
  rfl

/-- C1 fails on the code: in a release build (`debug_assert!` compiled
out) `query` on a rank that matches no configured target does not fail; it
silently returns a value (here `0.0` on a stream configured only with rank
`0.9`, queried at `0.5`).  Only the debug build panics. -/
theorem query_untracked_rank_not_rejected :
    ((Stream.new [Quantile.mk' (9/10) (1/100)]).query (1/2)).2 = 0
    ∧ (Stream.new [Quantile.mk' (9/10) (1/100)]).queryDebug (1/2) = none := by
  exact ⟨rfl, by decide⟩

/-- C7: `Quantile::new(rank, error)` succeeds iff `0 ≤ rank ≤ 1` and
`0 ≤ error ≤ 1`; violating any of the four bounds fails construction. -/
theorem quantile_new_succeeds_iff (value error : ℚ) :
    (Quantile.new value error).isSome ↔ 0 ≤ value ∧ value ≤ 1 ∧ 0 ≤ error ∧ error ≤ 1 := by
  unfold Quantile.new
  split <;> simp_all

/-- C8: on a stream on which nothing has been observed, `query` at a rank
carried by exactly one configured target does not fail (even with the
debug assertion live) and returns `0.0`. -/
theorem query_empty_stream (ts : List Quantile) (q : ℚ)
    (h : ts.countP (fun t => decide (t.value = q)) = 1) :
    (Stream.new ts).queryDebug q = some (Stream.new ts, 0) := by
  have ht : (Stream.new ts).targets = ts := rfl
  unfold Stream.queryDebug
  rw [ht, if_pos h]
  unfold Stream.query
  rw [flush_of_buffer_nil _ rfl]
  rfl

/-- Witness for C8 at a concrete stream tracking rank `1/2`. -/
theorem query_empty_stream_witness :
    List.countP (fun t => decide (t.value = (1/2 : ℚ))) [Quantile.mk' (1/2) (1/20)] = 1
    ∧ (Stream.new [Quantile.mk' (1/2) (1/20)]).queryDebug (1/2)
        = some (Stream.new [Quantile.mk' (1/2) (1/20)], 0) :=
  ⟨by decide, query_empty_stream _ _ (by decide)⟩

/-- C2: the merge-or-insert rule of `merge_and_insert`: into an empty
accumulator the candidate `c` is appended unconditionally; otherwise, with
`last` the last committed sample, if `last.g + c.g + c.d ≤
invariant(prev_rank)` then `last` is replaced in place by the merged
sample (`g = last.g + c.g`, `value = c.v`, `delta = c.d`) and `prev_rank`
is unchanged; otherwise `c` is appended as a new entry and `prev_rank`
advances by `last.g`. -/
theorem mergeAndInsert_rule (targets : List Quantile) (n : ℕ) (c : Sample)
    (init : List Sample) (last : Sample) (pr : ℚ) :
    mergeAndInsert targets n c [] pr = ([c], pr)
    ∧ (last.g + c.g + (c.d : ℚ) ≤ invariantF targets n pr →
        mergeAndInsert targets n c (init ++ [last]) pr
          = (init ++ [{ v := c.v, g := last.g + c.g, d := c.d }], pr))
    ∧ (invariantF targets n pr < last.g + c.g + (c.d : ℚ) →
        mergeAndInsert targets n c (init ++ [last]) pr
          = (init ++ [last] ++ [c], pr + last.g)) := by
  refine ⟨rfl, ?_, ?_⟩ <;> intro h <;>
    simp only [mergeAndInsert, List.getLast?_concat, List.dropLast_concat]
  · rw [if_pos h]
  · rw [if_neg (not_le.mpr h)]

/-- Witness for C2: all three branches of the rule at concrete inputs. -/
theorem mergeAndInsert_rule_witness :
    mergeAndInsert [] 0 ⟨2, 1, 0⟩ [] 0 = ([⟨2, 1, 0⟩], 0)
    ∧ ((⟨1, 1, 0⟩ : Sample).g + (⟨2, 1, 0⟩ : Sample).g + (((⟨2, 1, 0⟩ : Sample).d : ℤ) : ℚ)
         ≤ invariantF [Quantile.mk' (1/2) 1] 10 1
       ∧ mergeAndInsert [Quantile.mk' (1/2) 1] 10 ⟨2, 1, 0⟩ ([] ++ [⟨1, 1, 0⟩]) 1
           = ([] ++ [{ v := (2 : ℚ), g := (1 : ℚ) + 1, d := (0 : ℤ) }], 1))
    ∧ (invariantF [Quantile.mk' (1/2) 0] 0 0
         < (⟨1, 1, 0⟩ : Sample).g + (⟨2, 1, 0⟩ : Sample).g + (((⟨2, 1, 0⟩ : Sample).d : ℤ) : ℚ)
       ∧ mergeAndInsert [Quantile.mk' (1/2) 0] 0 ⟨2, 1, 0⟩ ([] ++ [⟨1, 1, 0⟩]) 0
           = ([] ++ [⟨1, 1, 0⟩] ++ [⟨2, 1, 0⟩], 0 + (⟨1, 1, 0⟩ : Sample).g)) := by
  refine ⟨(mergeAndInsert_rule [] 0 ⟨2, 1, 0⟩ [] ⟨1, 1, 0⟩ 0).1, ⟨?_, ?_⟩, ⟨?_, ?_⟩⟩
  · decide
  · exact (mergeAndInsert_rule [Quantile.mk' (1/2) 1] 10 ⟨2, 1, 0⟩ [] ⟨1, 1, 0⟩ 1).2.1 (by decide)
  · decide
  · exact (mergeAndInsert_rule [Quantile.mk' (1/2) 0] 0 ⟨2, 1, 0⟩ [] ⟨1, 1, 0⟩ 0).2.2 (by decide)

/-- C4: in the flush loop, the sample built for a buffer value always has
`g = 1`, and its initial `delta` is `0` exactly when the old-sample cursor
is at the very start (`idx = 0`, i.e. no old sample was committed yet) or
the very end (`idx = samples.len()`, all old samples committed) of the old
summary; otherwise `delta = floor(invariant(prev_rank + g of the next old
sample)) - 1`. -/
theorem flushLoop_buffer_sample_delta (targets : List Quantile) (fullLen : ℕ)
    (value : ℚ) (rest : List ℚ) (old ns : List Sample) (pr : ℚ) (n : ℕ)
    (old' ns' : List Sample) (pr' : ℚ)
    (hc : commitLE targets n value old ns pr = (old', ns', pr')) :
    (old'.length = fullLen ∨ old' = [] →
      flushLoop targets fullLen (value :: rest) old ns pr n
        = flushLoop targets fullLen rest old'
            (mergeAndInsert targets n { v := value, g := 1, d := 0 } ns' pr').1
            (mergeAndInsert targets n { v := value, g := 1, d := 0 } ns' pr').2 (n + 1))
    ∧ (∀ s0 tl, old' = s0 :: tl → old'.length ≠ fullLen →
      flushLoop targets fullLen (value :: rest) old ns pr n
        = flushLoop targets fullLen rest old'
            (mergeAndInsert targets n
              { v := value, g := 1, d := ⌊invariantF targets n (pr' + s0.g)⌋ - 1 } ns' pr').1
            (mergeAndInsert targets n
              { v := value, g := 1, d := ⌊invariantF targets n (pr' + s0.g)⌋ - 1 } ns' pr').2
            (n + 1)) := by
  constructor
  · intro h
    have h' : old'.length = fullLen ∨ old'.length = 0 := by
      rcases h with h | h
      · exact Or.inl h
      · exact Or.inr (by rw [h]; rfl)
    simp only [flushLoop, hc, if_pos h']
  · intro s0 tl hcons hne
    subst hcons
    have h' : ¬ ((s0 :: tl).length = fullLen ∨ (s0 :: tl).length = 0) := by
      rintro (h | h)
      · exact hne h
      · simp at h
    simp only [flushLoop, hc, if_neg h', List.headD_cons]

/-- Witness for C4: one concrete input per branch of the rule. -/
theorem flushLoop_buffer_sample_delta_witness :
    (commitLE [] 0 1 [] [] 0 = ([], [], 0)
      ∧ (([] : List Sample) = [])
      ∧ flushLoop [] 0 [1] [] [] 0 0
          = flushLoop [] 0 [] []
              (mergeAndInsert [] 0 { v := 1, g := 1, d := 0 } [] 0).1
              (mergeAndInsert [] 0 { v := 1, g := 1, d := 0 } [] 0).2 (0 + 1))
    ∧ (commitLE [] 0 1 [⟨5, 1, 0⟩] [] 0 = ([⟨5, 1, 0⟩], [], 0)
      ∧ [(⟨5, 1, 0⟩ : Sample)].length ≠ 2
      ∧ flushLoop [] 2 [1] [⟨5, 1, 0⟩] [] 0 0
          = flushLoop [] 2 [] [⟨5, 1, 0⟩]
              (mergeAndInsert [] 0
                { v := 1, g := 1, d := ⌊invariantF [] 0 (0 + (⟨5, 1, 0⟩ : Sample).g)⌋ - 1 }
                [] 0).1
              (mergeAndInsert [] 0
                { v := 1, g := 1, d := ⌊invariantF [] 0 (0 + (⟨5, 1, 0⟩ : Sample).g)⌋ - 1 }
                [] 0).2
              (0 + 1)) := by
  refine ⟨⟨rfl, rfl, ?_⟩, ⟨?_, by decide, ?_⟩⟩
  · exact (flushLoop_buffer_sample_delta [] 0 1 [] [] [] 0 0 [] [] 0 rfl).1 (Or.inr rfl)
  · decide
  · exact (flushLoop_buffer_sample_delta [] 2 1 [] [⟨5, 1, 0⟩] [] 0 0 [⟨5, 1, 0⟩] [] 0
      (by decide)).2 ⟨5, 1, 0⟩ [] rfl (by decide)

/-- C9: flush and query are idempotent: a second flush with no intervening
observe leaves the stream unchanged, and a repeated query (or a query
after an explicit flush) returns the same state and the same value. -/
theorem flush_query_idempotent (s : Stream) (q : ℚ) :
    s.flush_and_compress.flush_and_compress = s.flush_and_compress
    ∧ (s.query q).1.query q = s.query q
    ∧ s.flush_and_compress.query q = s.query q := by
  have hf : s.flush_and_compress.flush_and_compress = s.flush_and_compress :=
    flush_of_buffer_nil _ (Stream.flush_buffer_nil s)
  refine ⟨hf, ?_, ?_⟩ <;>
  · show Stream.query _ _ = _
    unfold Stream.query
    rw [hf]

/-! The g-mass bookkeeping lemmas behind C6. -/

/-- Total `g` of the empty summary. -/
theorem sumG_nil : sumG [] = 0 := rfl

/-- Total `g` of a cons. -/
theorem sumG_cons (s : Sample) (l : List Sample) : sumG (s :: l) = s.g + sumG l := by
  simp [sumG]

/-- Total `g` of an appended sample. -/
theorem sumG_concat (l : List Sample) (s : Sample) : sumG (l ++ [s]) = sumG l + s.g := by
  simp [sumG]

/-- Committing a candidate adds exactly its `g` to the accumulator's total
`g` mass, in both the merge and the insert branch. -/
theorem mergeAndInsert_sumG (targets : List Quantile) (n : ℕ) (c : Sample)
    (ns : List Sample) (pr : ℚ) :
    sumG (mergeAndInsert targets n c ns pr).1 = sumG ns + c.g := by
  rcases List.eq_nil_or_concat' ns with h | ⟨L, b, h⟩ <;> subst h
  · simp [mergeAndInsert, sumG]
  · simp only [mergeAndInsert, List.getLast?_concat, List.dropLast_concat]
    split
    · simp only [sumG_concat]
      ring
    · simp only [sumG_concat]

/-- The leading commit loop preserves the combined `g` mass of the
accumulator and the not-yet-committed old samples. -/
theorem commitLE_sumG (targets : List Quantile) (n : ℕ) (value : ℚ)
    (old : List Sample) :
    ∀ (ns : List Sample) (pr : ℚ),
      sumG (commitLE targets n value old ns pr).2.1
        + sumG (commitLE targets n value old ns pr).1 = sumG ns + sumG old := by
  induction old with
  | nil =>
      intro ns pr
      simp [commitLE, sumG_nil]
  | cons s rest ih =>
      intro ns pr
      by_cases h : s.v ≤ value
      · simp only [commitLE, if_pos h]
        rw [ih, mergeAndInsert_sumG, sumG_cons]
        ring
      · simp only [commitLE, if_neg h]

/-- The trailing commit loop moves all remaining old `g` mass into the
accumulator. -/
theorem commitAll_sumG (targets : List Quantile) (n : ℕ) (old : List Sample) :
    ∀ (ns : List Sample) (pr : ℚ),
      sumG (commitAll targets n old ns pr).1 = sumG ns + sumG old := by
  induction old with
  | nil =>
      intro ns pr
      simp [commitAll, sumG_nil]
  | cons s rest ih =>
      intro ns pr
      simp only [commitAll]
      rw [ih, mergeAndInsert_sumG, sumG_cons]
      ring

/-- The flush loop adds one unit of `g` per buffer value and increments
`number_items` once per buffer value. -/
theorem flushLoop_sumG (targets : List Quantile) (fullLen : ℕ) (bs : List ℚ) :
    ∀ (old ns : List Sample) (pr : ℚ) (n : ℕ),
      sumG (flushLoop targets fullLen bs old ns pr n).1
          = sumG ns + sumG old + (bs.length : ℚ)
      ∧ (flushLoop targets fullLen bs old ns pr n).2.2 = n + bs.length := by
  induction bs with
  | nil =>
      intro old ns pr n
      simp only [flushLoop, List.length_nil]
      constructor
      · rw [commitAll_sumG]
        push_cast
        ring
      · rfl
  | cons value rest ih =>
      intro old ns pr n
      simp only [flushLoop]
      have hq := commitLE_sumG targets n value old ns pr
      constructor
      · rw [(ih _ _ _ _).1, mergeAndInsert_sumG]
        rw [apply_ite Sample.g]
        simp only [List.length_cons]
        push_cast
        simp only [ite_self]
        linarith [hq]
      · rw [(ih _ _ _ _).2, List.length_cons]
        omega

/-- A flush moves the whole buffer's mass into the summary: the summary's
total `g` grows by the buffer length, `number_items` grows by the buffer
length, and buffer and scratch list end up empty. -/
theorem flush_sumG (s : Stream) (h : s.new_samples = []) :
    sumG s.flush_and_compress.samples = sumG s.samples + (s.buffer.length : ℚ)
    ∧ s.flush_and_compress.number_items = s.number_items + s.buffer.length
    ∧ s.flush_and_compress.new_samples = [] := by
  by_cases hb : s.buffer = []
  · rw [flush_of_buffer_nil s hb, hb, h]
    simp
  · unfold Stream.flush_and_compress
    rw [if_neg hb]
    have hlen : (s.buffer.insertionSort (· ≤ ·)).length = s.buffer.length :=
      (List.perm_insertionSort _ _).length_eq
    refine ⟨?_, ?_, rfl⟩
    · show sumG (flushLoop _ _ _ _ _ _ _).1 = _
      rw [(flushLoop_sumG _ _ _ _ _ _ _).1, h, hlen, sumG_nil]
      ring
    · show (flushLoop _ _ _ _ _ _ _).2.2 = _
      rw [(flushLoop_sumG _ _ _ _ _ _ _).2, hlen]

/-- One observation preserves the counting invariant, raising the count by
one (with or without the buffer-full flush). -/
theorem observe_count (s : Stream) (k : ℕ) (x : ℚ)
    (h1 : sumG s.samples + (s.buffer.length : ℚ) = (k : ℚ))
    (h2 : (s.number_items : ℚ) = sumG s.samples)
    (h3 : s.new_samples = []) :
    sumG (s.observe x).samples + (((s.observe x).buffer.length : ℕ) : ℚ) = ((k + 1 : ℕ) : ℚ)
    ∧ (((s.observe x).number_items : ℕ) : ℚ) = sumG (s.observe x).samples
    ∧ (s.observe x).new_samples = [] := by
  unfold Stream.observe
  dsimp only
  split
  · set s1 : Stream := { s with buffer := s.buffer ++ [x] } with hs1
    have hb : s1.buffer.length = s.buffer.length + 1 := by simp [hs1]
    have hfl := flush_sumG s1 h3
    refine ⟨?_, ?_, hfl.2.2⟩
    · rw [hfl.1, Stream.flush_buffer_nil, hb]
      show sumG s.samples + ((s.buffer.length + 1 : ℕ) : ℚ) + ((0 : ℕ) : ℚ) = _
      push_cast
      linarith
    · rw [hfl.1, hfl.2.1, hb]
      show (((s.number_items + (s.buffer.length + 1) : ℕ)) : ℚ) = _
      push_cast
      linarith
  · refine ⟨?_, h2, h3⟩
    show sumG s.samples + (((s.buffer ++ [x]).length : ℕ) : ℚ) = _
    simp only [List.length_append, List.length_cons, List.length_nil]
    push_cast
    linarith

/-- Folding `observe` over a value list raises the count by the list
length while keeping the counting invariant. -/
theorem foldl_observe_count (xs : List ℚ) :
    ∀ (s : Stream) (k : ℕ),
      sumG s.samples + (s.buffer.length : ℚ) = (k : ℚ) →
      (s.number_items : ℚ) = sumG s.samples →
      s.new_samples = [] →
      sumG (xs.foldl Stream.observe s).samples
          + ((xs.foldl Stream.observe s).buffer.length : ℚ) = ((k + xs.length : ℕ) : ℚ)
      ∧ ((xs.foldl Stream.observe s).number_items : ℚ)
          = sumG (xs.foldl Stream.observe s).samples
      ∧ (xs.foldl Stream.observe s).new_samples = [] := by
  induction xs with
  | nil =>
      intro s k h1 h2 h3
      exact ⟨by simpa using h1, h2, h3⟩
  | cons x rest ih =>
      intro s k h1 h2 h3
      have ho := observe_count s k x h1 h2 h3
      have := ih (s.observe x) (k + 1) ho.1 ho.2.1 ho.2.2
      simpa [Nat.add_assoc, Nat.add_comm 1 rest.length] using this

/-! The value-ordering lemmas behind C5. -/

/-- Appending a sample that bounds a sorted list keeps it sorted. -/
theorem sortedV_append_singleton (l : List Sample) (c : Sample)
    (hs : SortedV l) (hb : bndV l c.v) : SortedV (l ++ [c]) := by
  rw [SortedV, List.pairwise_append]
  refine ⟨hs, List.pairwise_singleton _ _, ?_⟩
  intro a ha b hb'
  rw [List.mem_singleton] at hb'
  subst hb'
  exact hb a ha

/-- Committing a candidate `c` that bounds a sorted accumulator keeps the
accumulator sorted and still bounded by `c.v`, in both branches. -/
theorem mergeAndInsert_sorted (targets : List Quantile) (n : ℕ) (c : Sample)
    (ns : List Sample) (pr : ℚ) (hs : SortedV ns) (hb : bndV ns c.v) :
    SortedV (mergeAndInsert targets n c ns pr).1
    ∧ bndV (mergeAndInsert targets n c ns pr).1 c.v := by
  rcases List.eq_nil_or_concat' ns with h | ⟨L, b, h⟩ <;> subst h
  · refine ⟨List.pairwise_singleton _ _, ?_⟩
    intro x hx
    have hx' : x ∈ [c] := hx
    rw [List.mem_singleton] at hx'
    subst hx'
    exact le_refl _
  · simp only [mergeAndInsert, List.getLast?_concat, List.dropLast_concat]
    have hL : SortedV L := hs.sublist (List.sublist_append_left L [b])
    have hbL : bndV L c.v := fun x hx => hb x (List.mem_append_left _ hx)
    split
    · refine ⟨sortedV_append_singleton L _ hL hbL, ?_⟩
      intro x hx
      rcases List.mem_append.mp hx with hx | hx
      · exact hbL x hx
      · rw [List.mem_singleton] at hx
        subst hx
        exact le_refl _
    · refine ⟨sortedV_append_singleton _ _ hs hb, ?_⟩
      intro x hx
      rcases List.mem_append.mp hx with hx | hx
      · exact hb x hx
      · rw [List.mem_singleton] at hx
        subst hx
        exact le_refl _

/-- The leading commit loop keeps the accumulator sorted and bounded by
the buffer value, consumes only old samples `≤ value`, and leaves behind
only old samples `> value`. -/
theorem commitLE_sorted (targets : List Quantile) (n : ℕ) (value : ℚ)
    (old : List Sample) :
    ∀ (ns : List Sample) (pr : ℚ),
      SortedV old → SortedV ns →
      (∀ x ∈ ns, ∀ y ∈ old, x.v ≤ y.v) → bndV ns value →
      SortedV (commitLE targets n value old ns pr).2.1
      ∧ bndV (commitLE targets n value old ns pr).2.1 value
      ∧ SortedV (commitLE targets n value old ns pr).1
      ∧ (∀ y ∈ (commitLE targets n value old ns pr).1, value < y.v) := by
  induction old with
  | nil =>
      intro ns pr _ hns _ hbnd
      exact ⟨hns, hbnd, List.Pairwise.nil, fun y hy => absurd hy (List.not_mem_nil y)⟩
  | cons s rest ih =>
      intro ns pr hold hns hE hbnd
      rw [SortedV, List.pairwise_cons] at hold
      by_cases h : s.v ≤ value
      · simp only [commitLE, if_pos h]
        have hbs : bndV ns s.v := fun x hx => hE x hx s (List.mem_cons_self s rest)
        have hmi := mergeAndInsert_sorted targets n s ns pr hns hbs
        apply ih
        · exact hold.2
        · exact hmi.1
        · intro x hx y hy
          exact le_trans (hmi.2 x hx) (hold.1 y hy)
        · intro x hx
          exact le_trans (hmi.2 x hx) h
      · simp only [commitLE, if_neg h]
        refine ⟨hns, hbnd, ?_, ?_⟩
        · rw [SortedV, List.pairwise_cons]
          exact ⟨hold.1, hold.2⟩
        · intro y hy
          rcases List.mem_cons.mp hy with hy | hy
          · subst hy
            exact lt_of_not_le h
          · exact lt_of_lt_of_le (lt_of_not_le h) (hold.1 y hy)

/-- The trailing commit loop keeps the accumulator sorted. -/
theorem commitAll_sorted (targets : List Quantile) (n : ℕ) (old : List Sample) :
    ∀ (ns : List Sample) (pr : ℚ),
      SortedV old → SortedV ns → (∀ x ∈ ns, ∀ y ∈ old, x.v ≤ y.v) →
      SortedV (commitAll targets n old ns pr).1 := by
  induction old with
  | nil =>
      intro ns pr _ hns _
      simpa [commitAll] using hns
  | cons s rest ih =>
      intro ns pr hold hns hE
      rw [SortedV, List.pairwise_cons] at hold
      simp only [commitAll]
      have hbs : bndV ns s.v := fun x hx => hE x hx s (List.mem_cons_self s rest)
      have hmi := mergeAndInsert_sorted targets n s ns pr hns hbs
      apply ih
      · exact hold.2
      · exact hmi.1
      · intro x hx y hy
        exact le_trans (hmi.2 x hx) (hold.1 y hy)

/-- The whole flush loop keeps the built summary sorted when the buffer is
sorted, the old summary is sorted, and the accumulator is below everything
still to be committed. -/
theorem flushLoop_sorted (targets : List Quantile) (fullLen : ℕ) (bs : List ℚ) :
    ∀ (old ns : List Sample) (pr : ℚ) (n : ℕ),
      bs.Pairwise (· ≤ ·) → SortedV old → SortedV ns →
      (∀ x ∈ ns, ∀ b ∈ bs, x.v ≤ b) →
      (∀ x ∈ ns, ∀ y ∈ old, x.v ≤ y.v) →
      SortedV (flushLoop targets fullLen bs old ns pr n).1 := by
  induction bs with
  | nil =>
      intro old ns pr n _ hold hns _ hE
      simp only [flushLoop]
      exact commitAll_sorted targets n old ns pr hold hns hE
  | cons value rest ih =>
      intro old ns pr n hbs hold hns hD hE
      rw [List.pairwise_cons] at hbs
      have hbnd : bndV ns value := fun x hx => hD x hx value (List.mem_cons_self _ _)
      have hcle := commitLE_sorted targets n value old ns pr hold hns hE hbnd
      obtain ⟨c, hcv, hceq⟩ : ∃ c : Sample, c.v = value ∧
          flushLoop targets fullLen (value :: rest) old ns pr n
            = flushLoop targets fullLen rest (commitLE targets n value old ns pr).1
                (mergeAndInsert targets n c (commitLE targets n value old ns pr).2.1
                  (commitLE targets n value old ns pr).2.2).1
                (mergeAndInsert targets n c (commitLE targets n value old ns pr).2.1
                  (commitLE targets n value old ns pr).2.2).2 (n + 1) := by
        refine ⟨_, ?_, rfl⟩
        split <;> rfl
      have hmi := mergeAndInsert_sorted targets n c
        (commitLE targets n value old ns pr).2.1
        (commitLE targets n value old ns pr).2.2 hcle.1 (by rw [hcv]; exact hcle.2.1)
      rw [hceq]
      apply ih
      · exact hbs.2
      · exact hcle.2.2.1
      · exact hmi.1
      · intro x hx b hb
        exact le_trans (le_trans (hmi.2 x hx) (le_of_eq hcv)) (hbs.1 b hb)
      · intro x hx y hy
        exact le_trans (le_trans (hmi.2 x hx) (le_of_eq hcv))
          (le_of_lt (hcle.2.2.2 y hy))

/-- A flush keeps the summary sorted (and the scratch list empty). -/
theorem flush_sorted (s : Stream) (hs : SortedV s.samples) (hn : s.new_samples = []) :
    SortedV s.flush_and_compress.samples ∧ s.flush_and_compress.new_samples = [] := by
  by_cases hb : s.buffer = []
  · rw [flush_of_buffer_nil s hb]
    exact ⟨hs, hn⟩
  · unfold Stream.flush_and_compress
    rw [if_neg hb]
    refine ⟨?_, rfl⟩
    show SortedV (flushLoop _ _ _ _ _ _ _).1
    apply flushLoop_sorted
    · exact List.sorted_insertionSort _ _
    · exact hs
    · rw [hn]
      exact List.Pairwise.nil
    · rw [hn]
      intro x hx
      exact absurd hx (List.not_mem_nil x)
    · rw [hn]
      intro x hx
      exact absurd hx (List.not_mem_nil x)

/-- One observation keeps the summary sorted and the scratch list empty. -/
theorem observe_sorted (s : Stream) (x : ℚ) (hs : SortedV s.samples)
    (hn : s.new_samples = []) :
    SortedV (s.observe x).samples ∧ (s.observe x).new_samples = [] := by
  unfold Stream.observe
  dsimp only
  split
  · exact flush_sorted _ hs hn
  · exact ⟨hs, hn⟩

/-- Folding `observe` keeps the summary sorted and the scratch list
empty. -/
theorem foldl_observe_sorted (xs : List ℚ) :
    ∀ s : Stream, SortedV s.samples → s.new_samples = [] →
      SortedV (xs.foldl Stream.observe s).samples
      ∧ (xs.foldl Stream.observe s).new_samples = [] := by
  induction xs with
  | nil =>
      intro s hs hn
      exact ⟨hs, hn⟩
  | cons x rest ih =>
      intro s hs hn
      have h := observe_sorted s x hs hn
      exact ih _ h.1 h.2

/-- C5: after any sequence of `observe` calls followed by a flush, the
Summary Store's samples are non-decreasing in `value`. -/
theorem flush_samples_sorted (ts : List Quantile) (xs : List ℚ) :
    SortedV (xs.foldl Stream.observe (Stream.new ts)).flush_and_compress.samples := by
  have h := foldl_observe_sorted xs (Stream.new ts) List.Pairwise.nil rfl
  exact (flush_sorted _ h.1 h.2).1

/-- C6: after any sequence of `observe` calls, the total `g` mass of the
summary plus the number of values still buffered equals the number of
observations; and after a flush `number_items` equals the summary's total
`g` mass. -/
theorem observe_total_g_mass (ts : List Quantile) (xs : List ℚ) :
    sumG (xs.foldl Stream.observe (Stream.new ts)).samples
        + ((xs.foldl Stream.observe (Stream.new ts)).buffer.length : ℚ) = (xs.length : ℚ)
    ∧ sumG (xs.foldl Stream.observe (Stream.new ts)).flush_and_compress.samples
        = ((xs.foldl Stream.observe (Stream.new ts)).flush_and_compress.number_items : ℚ) := by
  have h := foldl_observe_count xs (Stream.new ts) 0 (by simp [Stream.new, sumG_nil])
    (by simp [Stream.new, sumG_nil]) rfl
  refine ⟨by simpa using h.1, ?_⟩
  have hfl := flush_sumG (xs.foldl Stream.observe (Stream.new ts)) h.2.2
  rw [hfl.1, hfl.2.1]
  push_cast
  rw [h.2.1]

/-! The query-scan characterization behind C3. -/

/-- One-step shift of the scan condition past the head sample. -/
theorem qCond_cons_succ (a : Sample) (l : List Sample) (s : ℚ) (j : ℕ) :
    qCond (a :: l) s (j + 1) ↔ qCond l (s - a.g) j := by
  unfold qCond gsum
  simp only [List.take_succ_cons, List.map_cons, List.sum_cons, List.getD_cons_succ]
  constructor <;> intro h <;> linarith

/-- The scan condition at index `1` of a two-plus list. -/
theorem qCond_one (a b : Sample) (l : List Sample) (s : ℚ) :
    qCond (a :: b :: l) s 1 ↔ s < a.g + b.g + (b.d : ℚ) := by
  unfold qCond gsum
  simp only [List.take_succ_cons, List.take_zero, List.map_cons, List.map_nil,
    List.sum_cons, List.sum_nil, List.getD_cons_succ, List.getD_cons_zero]
  constructor <;> intro h <;> linarith

/-- The query scan returns the value of the sample before the first index
(among the second to the second-to-last samples) whose accumulated rank
condition fires, and the last sample's value when none fires.  `r` is the
already-accumulated offset, so the condition reads `t - r`. -/
theorem queryScan_char (l : List Sample) :
    ∀ (t r : ℚ), l ≠ [] →
      (∃ i, 1 ≤ i ∧ i + 1 < l.length ∧ qCond l (t - r) i
        ∧ (∀ j, 1 ≤ j → j < i → ¬ qCond l (t - r) j)
        ∧ queryScan t r l = (l.getD (i - 1) default).v)
      ∨ ((∀ j, 1 ≤ j → j + 1 < l.length → ¬ qCond l (t - r) j)
        ∧ queryScan t r l = (l.getD (l.length - 1) default).v) := by
  induction l with
  | nil =>
      intro t r h
      exact absurd rfl h
  | cons a l' ih =>
      intro t r _
      rcases l' with _ | ⟨b, l''⟩
      · refine Or.inr ⟨?_, rfl⟩
        intro j hj hlt
        simp only [List.length_cons, List.length_nil] at hlt
        omega
      rcases l'' with _ | ⟨c0, rest⟩
      · refine Or.inr ⟨?_, rfl⟩
        intro j hj hlt
        simp only [List.length_cons, List.length_nil] at hlt
        omega
      by_cases hcond : t < r + a.g + b.g + (b.d : ℚ)
      · refine Or.inl ⟨1, le_refl 1, ?_, ?_, ?_, ?_⟩
        · simp only [List.length_cons]
          omega
        · rw [qCond_one]
          linarith
        · intro j hj hlt
          omega
        · show (if t < r + a.g + b.g + (b.d : ℚ) then a.v else _) = _
          rw [if_pos hcond]
          rfl
      · have hrec := ih t (r + a.g) (List.cons_ne_nil _ _)
        have hstep : queryScan t r (a :: b :: c0 :: rest)
            = queryScan t (r + a.g) (b :: c0 :: rest) := by
          show (if t < r + a.g + b.g + (b.d : ℚ) then a.v else _) = _
          rw [if_neg hcond]
        rcases hrec with ⟨i, hi1, hilen, hic, himin, hires⟩ | ⟨hnone, hires⟩
        · obtain ⟨i', rfl⟩ : ∃ k, i = k + 1 := ⟨i - 1, by omega⟩
          refine Or.inl ⟨i' + 2, by omega, ?_, ?_, ?_, ?_⟩
          · simp only [List.length_cons] at hilen ⊢
            omega
          · show qCond (a :: b :: c0 :: rest) (t - r) (i' + 1 + 1)
            rw [qCond_cons_succ, sub_sub]
            exact hic
          · intro j hj hlt
            rcases j with _ | j1
            · omega
            rcases j1 with _ | j2
            · show ¬ qCond (a :: b :: c0 :: rest) (t - r) 1
              rw [qCond_one]
              intro hq
              exact hcond (by linarith)
            · rw [qCond_cons_succ, sub_sub]
              exact himin (j2 + 1) (by omega) (by omega)
          · rw [hstep, hires]
            rfl
        · refine Or.inr ⟨?_, ?_⟩
          · intro j hj hlt
            rcases j with _ | j1
            · omega
            rcases j1 with _ | j2
            · show ¬ qCond (a :: b :: c0 :: rest) (t - r) 1
              rw [qCond_one]
              intro hq
              exact hcond (by linarith)
            · rw [qCond_cons_succ, sub_sub]
              refine hnone (j2 + 1) (by omega) ?_
              simp only [List.length_cons] at hlt ⊢
              omega
          · rw [hstep, hires]
            rfl

/-- C3: on a non-empty (flushed) Summary Store, `query` computes
`t = rank * item_count + invariant(rank * item_count) / 2`, scans from the
second to the second-to-last sample accumulating `r` by the previous
sample's `g`, returns the previous sample's value at the first sample with
`r + g + delta > t`, and the last sample's value when no sample fires. -/
theorem query_scan_characterization (s : Stream) (q : ℚ)
    (h : s.flush_and_compress.samples ≠ []) :
    (∃ i, 1 ≤ i ∧ i + 1 < s.flush_and_compress.samples.length
      ∧ qCond s.flush_and_compress.samples (queryT s.flush_and_compress q) i
      ∧ (∀ j, 1 ≤ j → j < i →
          ¬ qCond s.flush_and_compress.samples (queryT s.flush_and_compress q) j)
      ∧ (s.query q).2 = (s.flush_and_compress.samples.getD (i - 1) default).v)
    ∨ ((∀ j, 1 ≤ j → j + 1 < s.flush_and_compress.samples.length →
          ¬ qCond s.flush_and_compress.samples (queryT s.flush_and_compress q) j)
      ∧ (s.query q).2
          = (s.flush_and_compress.samples.getD
              (s.flush_and_compress.samples.length - 1) default).v) := by
  have hc := queryScan_char s.flush_and_compress.samples (queryT s.flush_and_compress q) 0 h
  rw [sub_zero] at hc
  have hq : (s.query q).2
      = queryScan (queryT s.flush_and_compress q) 0 s.flush_and_compress.samples := by
    unfold Stream.query
    dsimp only
    rw [if_neg h]
  rw [hq]
  exact hc

/-- Witness for C3 on the one-observation stream tracking rank `1/2`. -/
theorem query_scan_characterization_witness :
    ((Stream.new [Quantile.mk' (1/2) (1/20)]).observe 3).flush_and_compress.samples ≠ []
    ∧ ((∃ i, 1 ≤ i
          ∧ i + 1 < ((Stream.new [Quantile.mk' (1/2) (1/20)]).observe
              3).flush_and_compress.samples.length
          ∧ qCond ((Stream.new [Quantile.mk' (1/2) (1/20)]).observe 3).flush_and_compress.samples
              (queryT ((Stream.new [Quantile.mk' (1/2) (1/20)]).observe 3).flush_and_compress
                (1/2)) i
          ∧ (∀ j, 1 ≤ j → j < i →
              ¬ qCond ((Stream.new [Quantile.mk' (1/2) (1/20)]).observe
                  3).flush_and_compress.samples
                (queryT ((Stream.new [Quantile.mk' (1/2) (1/20)]).observe 3).flush_and_compress
                  (1/2)) j)
          ∧ (((Stream.new [Quantile.mk' (1/2) (1/20)]).observe 3).query (1/2)).2
              = (((Stream.new [Quantile.mk' (1/2) (1/20)]).observe
                  3).flush_and_compress.samples.getD (i - 1) default).v)
      ∨ ((∀ j, 1 ≤ j →
            j + 1 < ((Stream.new [Quantile.mk' (1/2) (1/20)]).observe
                3).flush_and_compress.samples.length →
            ¬ qCond ((Stream.new [Quantile.mk' (1/2) (1/20)]).observe
                3).flush_and_compress.samples
              (queryT ((Stream.new [Quantile.mk' (1/2) (1/20)]).observe 3).flush_and_compress
                (1/2)) j)
        ∧ (((Stream.new [Quantile.mk' (1/2) (1/20)]).observe 3).query (1/2)).2
            = (((Stream.new [Quantile.mk' (1/2) (1/20)]).observe
                3).flush_and_compress.samples.getD
                (((Stream.new [Quantile.mk' (1/2) (1/20)]).observe
                    3).flush_and_compress.samples.length - 1) default).v)) :=
  ⟨by decide, query_scan_characterization _ _ (by decide)⟩

end RustQuantile
